import Mathlib

set_option maxHeartbeats 1000000

/-!
Shallow embedding of the Triton kernel layer of `triton_train_nanoGPT.py`
(the row-softmax, row-layernorm and elementwise-GELU kernels, their host
dispatch wrappers, and the launch model), together with theorems settling
the specification claims about them.

Modelling conventions:
* machine floats are modelled by `ℝ`;
* a kernel program instance is modelled by the finite list of stores it
  performs, as `(offset, value)` pairs — a store guarded by a false mask
  lane simply does not appear in the list;
* an output buffer produced by `torch.empty_like` is a `List (Option ℝ)`
  whose entries start as `none` (uninitialised memory); applying a store
  sets the entry to `some value`;
* `tl.load(..., mask, other)` is modelled by an explicit
  `if lane-valid then value else other` fill.
-/

namespace TritonNanoGPT

/-- `triton.cdiv(a, b)` — ceiling division, used by the host wrappers to
compute 1-D grid sizes. -/
def cdiv (a b : ℕ) : ℕ := (a + b - 1) / b

/-- Fuel-driven core of `triton.next_power_of_2`: doubles the result of the
recursive call on `⌈n/2⌉` until `n ≤ 1`. -/
def nextPow2Go : ℕ → ℕ → ℕ
  | 0, _ => 1
  | fuel + 1, n => if n ≤ 1 then 1 else 2 * nextPow2Go fuel ((n + 1) / 2)

/-- `triton.next_power_of_2 n`: the smallest power of two `≥ n`
(`0` for `n = 0`, matching the bit-twiddling implementation). -/
def nextPow2 (n : ℕ) : ℕ := if n = 0 then 0 else nextPow2Go n n

lemma nextPow2Go_one (fuel : ℕ) : nextPow2Go fuel 1 = 1 := by
  cases fuel <;> simp [nextPow2Go]

lemma nextPow2Go_ge : ∀ (fuel n : ℕ), n ≤ fuel → n ≤ nextPow2Go fuel n := by
  intro fuel
  induction fuel with
  | zero => intro n h; omega
  | succ f ih =>
    intro n h
    by_cases h1 : n ≤ 1
    · simp [nextPow2Go, h1]
    · have hm : (n + 1) / 2 ≤ f := by omega
      have := ih ((n + 1) / 2) hm
      have h2 := Nat.div_add_mod (n + 1) 2
      have h3 : (n + 1) % 2 < 2 := Nat.mod_lt _ (by omega)
      simp only [nextPow2Go, h1, if_false]
      omega

lemma le_nextPow2 (n : ℕ) (h : 1 ≤ n) : n ≤ nextPow2 n := by
  have : n ≠ 0 := by omega
  simpa [nextPow2, this] using nextPow2Go_ge n n le_rfl

lemma nextPow2Go_pow : ∀ (fuel n : ℕ), ∃ k, nextPow2Go fuel n = 2 ^ k := by
  intro fuel
  induction fuel with
  | zero => intro n; exact ⟨0, rfl⟩
  | succ f ih =>
    intro n
    by_cases h1 : n ≤ 1
    · exact ⟨0, by simp [nextPow2Go, h1]⟩
    · obtain ⟨k, hk⟩ := ih ((n + 1) / 2)
      exact ⟨k + 1, by simp [nextPow2Go, h1, hk, pow_succ]; ring⟩

lemma nextPow2_pow (n : ℕ) (h : 1 ≤ n) : ∃ k, nextPow2 n = 2 ^ k := by
  have : n ≠ 0 := by omega
  simpa [nextPow2, this] using nextPow2Go_pow n n

lemma nextPow2Go_le : ∀ (fuel n : ℕ), 2 ≤ n → n ≤ fuel → nextPow2Go fuel n ≤ 2 * n - 2 := by
  intro fuel
  induction fuel with
  | zero => intro n h2 h; omega
  | succ f ih =>
    intro n h2 h
    have h1 : ¬ n ≤ 1 := by omega
    simp only [nextPow2Go, h1, if_false]
    by_cases hm2 : 2 ≤ (n + 1) / 2
    · have hmf : (n + 1) / 2 ≤ f := by omega
      have := ih ((n + 1) / 2) hm2 hmf
      omega
    · have : (n + 1) / 2 = 1 := by omega
      rw [this, nextPow2Go_one]
      omega

lemma nextPow2_lt (n : ℕ) (h : 1 ≤ n) : nextPow2 n < 2 * n := by
  rcases Nat.lt_or_ge n 2 with h1 | h2
  · have : n = 1 := by omega
    subst this
    simp [nextPow2, nextPow2Go]
  · have hne : n ≠ 0 := by omega
    have := nextPow2Go_le n n h2 le_rfl
    simp only [nextPow2, hne, if_false]
    omega

/-- `(List.range n).filter (· < k) = List.range k` when `k ≤ n`:
the valid lanes of a block of `n` lanes with extent `k`. -/
lemma range_filter_lt (k n : ℕ) (h : k ≤ n) :
    (List.range n).filter (fun c => c < k) = List.range k := by
  induction n with
  | zero =>
    have : k = 0 := by omega
    simp [this]
  | succ m ih =>
    rw [List.range_succ, List.filter_append]
    rcases Nat.lt_or_ge m k with hmk | hmk
    · have hk : k = m + 1 := by omega
      subst hk
      have : (List.range m).filter (fun c => c < m + 1) = List.range m := by
        apply List.filter_eq_self.mpr
        intro a ha
        simp only [decide_eq_true_eq]
        have := List.mem_range.mp ha
        omega
      simp [this, hmk, List.range_succ]
    · have : ¬ m < k := by omega
      simp [ih (by omega), this]

/-- Summing a mask-filled block (`other = 0`) over all `n` lanes equals the
sum over the `k` valid lanes, for `k ≤ n`. -/
lemma sum_map_ite_lt (k n : ℕ) (h : k ≤ n) (f : ℕ → ℝ) :
    ((List.range n).map (fun c => if c < k then f c else 0)).sum
      = ((List.range k).map f).sum := by
  induction n with
  | zero =>
    have : k = 0 := by omega
    simp [this]
  | succ m ih =>
    rw [List.range_succ, List.map_append, List.sum_append]
    rcases Nat.lt_or_ge m k with hmk | hmk
    · have hk : k = m + 1 := by omega
      subst hk
      have hcong : (List.range m).map (fun c => if c < m + 1 then f c else 0)
          = (List.range m).map f := by
        apply List.map_congr_left
        intro a ha
        have haa : a < m + 1 := by
          have := List.mem_range.mp ha
          omega
        simp [haa]
      rw [hcong, List.range_succ, List.map_append, List.sum_append]
      simp [hmk]
    · have hnm : ¬ m < k := by omega
      rw [ih (by omega)]
      simp [hnm]

/-- Applying a list of `(offset, value)` stores to an output buffer. -/
def applyWrites (buf : List (Option ℝ)) (ws : List (ℕ × ℝ)) : List (Option ℝ) :=
  ws.foldl (fun b iv => b.set iv.1 (some iv.2)) buf

lemma length_applyWrites (ws : List (ℕ × ℝ)) :
    ∀ buf : List (Option ℝ), (applyWrites buf ws).length = buf.length := by
  induction ws with
  | nil => intro buf; rfl
  | cons hd tl ih =>
    intro buf
    simp only [applyWrites, List.foldl_cons]
    rw [show (List.foldl (fun b iv => b.set iv.1 (some iv.2))
      (buf.set hd.1 (some hd.2)) tl) = applyWrites (buf.set hd.1 (some hd.2)) tl from rfl,
      ih, List.length_set]

lemma applyWrites_getElem?_not_mem (ws : List (ℕ × ℝ)) :
    ∀ (buf : List (Option ℝ)) (i : ℕ), i ∉ ws.map Prod.fst →
      (applyWrites buf ws)[i]? = buf[i]? := by
  induction ws with
  | nil => intro buf i _; rfl
  | cons hd tl ih =>
    intro buf i hi
    simp only [List.map_cons, List.mem_cons] at hi
    push_neg at hi
    simp only [applyWrites, List.foldl_cons]
    rw [show (List.foldl (fun b iv => b.set iv.1 (some iv.2))
      (buf.set hd.1 (some hd.2)) tl) = applyWrites (buf.set hd.1 (some hd.2)) tl from rfl,
      ih _ i hi.2, List.getElem?_set_ne (by omega)]

lemma applyWrites_getElem?_mem (ws : List (ℕ × ℝ)) :
    ∀ (buf : List (Option ℝ)) (i : ℕ) (v : ℝ),
      (ws.map Prod.fst).Nodup → (i, v) ∈ ws → i < buf.length →
      (applyWrites buf ws)[i]? = some (some v) := by
  induction ws with
  | nil => intro buf i v _ hm _; simp at hm
  | cons hd tl ih =>
    intro buf i v hnd hm hlen
    simp only [List.map_cons, List.nodup_cons] at hnd
    simp only [applyWrites, List.foldl_cons]
    rw [show (List.foldl (fun b iv => b.set iv.1 (some iv.2))
      (buf.set hd.1 (some hd.2)) tl) = applyWrites (buf.set hd.1 (some hd.2)) tl from rfl]
    rcases List.mem_cons.mp hm with heq | htl
    · have h1 : hd.1 = i := by rw [← heq]
      have h2 : hd.2 = v := by rw [← heq]
      have hnm : i ∉ tl.map Prod.fst := h1 ▸ hnd.1
      rw [applyWrites_getElem?_not_mem tl _ i hnm, h1, h2,
        List.getElem?_set_eq_of_lt _ hlen]
    · exact ih _ i v hnd.2 htl (by rw [List.length_set]; exact hlen)

/-- Folding a 1-D grid of program instances over an output buffer: offsets
that no program's mask enables are never touched. -/
lemma foldGrid_getElem?_not_mem (P : ℕ → List (ℕ × ℝ)) (i : ℕ) :
    ∀ (l : List ℕ) (buf : List (Option ℝ)),
      (∀ p ∈ l, i ∉ (P p).map Prod.fst) →
      (l.foldl (fun y p => applyWrites y (P p)) buf)[i]? = buf[i]? := by
  intro l
  induction l with
  | nil => intro buf _; rfl
  | cons hd tl ih =>
    intro buf h
    simp only [List.foldl_cons]
    rw [ih _ (fun p hp => h p (List.mem_cons_of_mem _ hp)),
      applyWrites_getElem?_not_mem _ _ _ (h hd (List.mem_cons_self _ _))]

/-- Folding a 1-D grid of program instances: if exactly one program `p0` of
the grid stores value `v` at offset `i`, the final buffer holds `some v`
there. -/
lemma foldGrid_getElem?_mem (P : ℕ → List (ℕ × ℝ)) (i : ℕ) (v : ℝ) (p0 : ℕ) :
    ∀ (l : List ℕ) (buf : List (Option ℝ)),
      l.Nodup → p0 ∈ l → i < buf.length →
      (i, v) ∈ P p0 → ((P p0).map Prod.fst).Nodup →
      (∀ p ∈ l, p ≠ p0 → i ∉ (P p).map Prod.fst) →
      (l.foldl (fun y p => applyWrites y (P p)) buf)[i]? = some (some v) := by
  intro l
  induction l with
  | nil => intro buf _ hp0 _ _ _ _; simp at hp0
  | cons hd tl ih =>
    intro buf hnd hp0 hlen hm hknd hothers
    have hndtl := (List.nodup_cons.mp hnd).2
    have hhdtl := (List.nodup_cons.mp hnd).1
    simp only [List.foldl_cons]
    by_cases hhd : hd = p0
    · subst hhd
      rw [foldGrid_getElem?_not_mem]
      · exact applyWrites_getElem?_mem _ _ _ _ hknd hm hlen
      · intro p hp
        exact hothers p (List.mem_cons_of_mem _ hp) (fun hcon => hhdtl (hcon ▸ hp))
    · have hp0tl : p0 ∈ tl := by
        rcases List.mem_cons.mp hp0 with h | h
        · exact absurd h.symm hhd
        · exact h
      apply ih _ hndtl hp0tl _ hm hknd
      · intro p hp hne
        exact hothers p (List.mem_cons_of_mem _ hp) hne
      · rw [length_applyWrites]; exact hlen

noncomputable section

/-- `tl.load(base + c, mask = c < N, other)`: a masked lane reads the
neutral fill value instead of memory. -/
def maskedLoad (N : ℕ) (f : ℕ → ℝ) (other : ℝ) (c : ℕ) : ℝ :=
  if c < N then f c else other

/-- `torch.clamp(v, -100, 100)`, applied elementwise by the softmax host
wrapper before dispatch. -/
def clamp100 (v : ℝ) : ℝ := max (-100) (min v 100)

/-- `tl.max` over the values held by a block's lanes (reduction max). -/
def listMax : List ℝ → ℝ
  | [] => 0
  | h :: t => t.foldl max h

/-- `softmax_kernel` (src lines 71–90): the program instance `row_idx` of a
softmax launch, modelled as the list of `(offset, value)` stores it performs.
Lanes `c` with `c < n_cols` load `input[row_idx * input_row_stride + c]`;
masked lanes load `-inf`, which is the identity of the `tl.max` reduction and
contributes `exp(-inf) = 0` to the `tl.sum` reduction, so both reductions
below range over the valid lanes only.  The final `tl.store` is guarded by
the same mask, so exactly the valid lanes are written. -/
def softmax_kernel (row_idx input_row_stride output_row_stride n_cols BLOCK_SIZE : ℕ)
    (input : ℕ → ℝ) : List (ℕ × ℝ) :=
  let valid := (List.range BLOCK_SIZE).filter (fun c => c < n_cols)
  let logits := fun c => input (row_idx * input_row_stride + c)
  let max_logits := listMax (valid.map logits)
  let exp_logits := fun c => Real.exp (logits c - max_logits)
  let sum_exp_logits := (valid.map exp_logits).sum + 1e-6
  valid.map (fun c => (row_idx * output_row_stride + c, exp_logits c / sum_exp_logits))

/-- `mean = tl.sum(x, axis=0) / N` in `layer_norm_kernel`: the sum ranges
over all `BLOCK_SIZE` lanes, with masked lanes contributing the fill `0.0`. -/
def layer_norm_mean (N BLOCK_SIZE : ℕ) (x : ℕ → ℝ) : ℝ :=
  ((List.range BLOCK_SIZE).map (maskedLoad N x 0)).sum / N

/-- `var = tl.sum(x_centered * x_centered, axis=0) / N` in
`layer_norm_kernel`: again a reduction over all `BLOCK_SIZE` lanes.  Note
that a masked lane holds `x = 0.0`, hence `x_centered = -mean` there, and
contributes `mean^2` to this sum. -/
def layer_norm_var (N BLOCK_SIZE : ℕ) (x : ℕ → ℝ) : ℝ :=
  ((List.range BLOCK_SIZE).map
    (fun c => (maskedLoad N x 0 c - layer_norm_mean N BLOCK_SIZE x)
      * (maskedLoad N x 0 c - layer_norm_mean N BLOCK_SIZE x))).sum / N

/-- `layer_norm_kernel` (src lines 92–114): the program instance `row_idx`
of a layer-norm launch, as the list of `(offset, value)` stores into the
flat output buffer `y_ptr`.  Loads are `x[row_idx * N + c]` for `c < N`
(fill `0.0`), `weight[c]` (fill `1.0`) and `bias[c]` (fill `0.0`); the
store at `y_ptr + row_idx * N + c` is guarded by `c < N`. -/
def layer_norm_kernel (row_idx N BLOCK_SIZE : ℕ) (eps : ℝ)
    (xflat weight bias : ℕ → ℝ) : List (ℕ × ℝ) :=
  let xrow := fun c => xflat (row_idx * N + c)
  let x := maskedLoad N xrow 0
  let mean := layer_norm_mean N BLOCK_SIZE xrow
  let rstd := 1 / Real.sqrt (layer_norm_var N BLOCK_SIZE xrow + eps)
  ((List.range BLOCK_SIZE).filter (fun c => c < N)).map
    (fun c => (row_idx * N + c,
      (x c - mean) * rstd * maskedLoad N weight 1 c + maskedLoad N bias 0 c))

/-- The scalar GELU approximation computed by `gelu_kernel` (src lines
131–133), with the code's literal decimal constant for `sqrt(2/pi)`. -/
def gelu_scalar (x : ℝ) : ℝ :=
  let sqrt_2_over_pi : ℝ := 0.7978845608028654
  let coeff := sqrt_2_over_pi * (1 + 0.044715 * x * x)
  0.5 * x * (1 + (x * coeff) / (1 + |x * coeff|))

/-- `gelu_kernel` (src lines 116–135): program instance `pid` handles the
contiguous tile `pid * BLOCK_SIZE + tl.arange(0, BLOCK_SIZE)`, masked by
`offsets < n_elements`; loads and stores share the mask. -/
def gelu_kernel (pid BLOCK_SIZE n_elements : ℕ) (x : ℕ → ℝ) : List (ℕ × ℝ) :=
  (((List.range BLOCK_SIZE).map (fun l => pid * BLOCK_SIZE + l)).filter
      (fun o => o < n_elements)).map
    (fun o => (o, gelu_scalar (x o)))

/-- `BLOCK_SIZE=triton.next_power_of_2(N)` chosen by `TritonSoftmax.forward`
(src line 175). -/
def TritonSoftmax_BLOCK (N : ℕ) : ℕ := nextPow2 N

/-- `grid = lambda meta: (B,)` chosen by `TritonSoftmax.forward`
(src line 171): one program instance per row. -/
def TritonSoftmax_grid (B : ℕ) : ℕ := B

/-- One row of `TritonSoftmax.forward` (src lines 164–179).  The wrapper
clamps the row to `[-100, 100]`, launches `softmax_kernel` on it (program
`row_idx` touches only offsets `row_idx * stride + [0, N)`, and the stride
of the contiguous 2-D view is the row length, so the launch factors into an
independent map over rows), then adds `1e-8` and renormalises by the row
sum.  Because `BLOCK_SIZE = nextPow2 N ≥ N`, the kernel's masked stores
cover offsets `0, …, N-1` in order (`softmax_launch_config` below), so the
kernel's output row is the list of stored values. -/
def softmaxHostRow (row : List ℝ) : List ℝ :=
  let rc := row.map clamp100
  let n := rc.length
  let kout := (softmax_kernel 0 n n n (TritonSoftmax_BLOCK n) (fun o => rc.getD o 0)).map Prod.snd
  let y := kout.map (fun v => v + 1e-8)
  y.map (fun v => v / y.sum)

/-- `TritonSoftmax.forward` on the 2-D view `[B, N]` of the input: grid
`(B,)`, one program per row. -/
def TritonSoftmax_forward (x : List (List ℝ)) : List (List ℝ) :=
  x.map softmaxHostRow

/-- `TritonLayerNorm.forward` (src lines 149–161) on the reshaped 2-D view
`x_ : [M, N]`, for a module with 1-D normalized shape `(N,)` (as used in the
repository, `TritonLayerNorm(dim)`).  The output buffer `y` comes from
`torch.empty_like` (uninitialised, modelled as `none` entries) and the
launch uses the hard-coded `BLOCK_SIZE=128` with
`grid = (triton.cdiv(M, BLOCK_SIZE),)`, so program instances
`0, …, cdiv M 128 - 1` each normalise one row. -/
def TritonLayerNorm_forward (eps : ℝ) (weight bias : ℕ → ℝ)
    (x : List (List ℝ)) : List (Option ℝ) :=
  let M := x.length
  let N := x.headI.length
  let xflat := fun o => x.flatten.getD o 0
  (List.range (cdiv M 128)).foldl
    (fun y p => applyWrites y (layer_norm_kernel p N 128 eps xflat weight bias))
    (List.replicate (M * N) none)

/-- A tensor: a shape and a flat data buffer. -/
structure Tensor where
  shape : List ℕ
  data : List ℝ

/-- The assertion message at src line 150. -/
def shapeMismatchMsg : String := "Input shape does not match normalized_shape."

/-- Fuel-driven splitting of a flat buffer into rows of length `N`
(`x.reshape(-1, N)`). -/
def chunksGo (N : ℕ) : ℕ → List ℝ → List (List ℝ)
  | 0, _ => []
  | fuel + 1, l => if l = [] then [] else l.take N :: chunksGo N fuel (l.drop N)

/-- `x_ = x.reshape(-1, N)` for `N = normalized_shape[-1]`. -/
def chunks (N : ℕ) (l : List ℝ) : List (List ℝ) := chunksGo N l.length l

/-- `TritonLayerNorm.forward` including the shape assertion at src line 150:
`assert x.shape[-len(self.normalized_shape):] == self.normalized_shape`.
A failed Python `assert` raises before anything else in the body runs, so a
mismatch yields an error before any kernel launch; otherwise the input is
reshaped to `(-1, normalized_shape[-1])` and dispatched. -/
def TritonLayerNorm_forwardChecked (normalized_shape : List ℕ) (eps : ℝ)
    (weight bias : ℕ → ℝ) (t : Tensor) : Except String (List (Option ℝ)) :=
  if t.shape.drop (t.shape.length - normalized_shape.length) = normalized_shape then
    Except.ok (TritonLayerNorm_forward eps weight bias
      (chunks (normalized_shape.getLastD 1) t.data))
  else
    Except.error shapeMismatchMsg

/-- `TritonGELU.forward` (src lines 182–190): output from `torch.empty_like`
(uninitialised `none` entries), launch with `BLOCK_SIZE=1024` and
`grid = (triton.cdiv(n_elements, BLOCK_SIZE),)` over the flattened input. -/
def TritonGELU_forward (x : List ℝ) : List (Option ℝ) :=
  let n_elements := x.length
  (List.range (cdiv n_elements 1024)).foldl
    (fun y p => applyWrites y (gelu_kernel p 1024 n_elements (fun o => x.getD o 0)))
    (List.replicate n_elements none)

end

lemma length_foldGrid (P : ℕ → List (ℕ × ℝ)) :
    ∀ (l : List ℕ) (buf : List (Option ℝ)),
      (l.foldl (fun y p => applyWrites y (P p)) buf).length = buf.length := by
  intro l
  induction l with
  | nil => intro buf; rfl
  | cons hd tl ih =>
    intro buf
    simp only [List.foldl_cons]
    rw [ih, length_applyWrites]

lemma layer_norm_kernel_keys (row_idx N BLOCK_SIZE : ℕ) (eps : ℝ)
    (xflat weight bias : ℕ → ℝ) :
    (layer_norm_kernel row_idx N BLOCK_SIZE eps xflat weight bias).map Prod.fst
      = ((List.range BLOCK_SIZE).filter (fun c => c < N)).map
          (fun c => row_idx * N + c) := by
  unfold layer_norm_kernel
  rw [List.map_map]
  rfl

lemma getD_map {α β : Type} (f : α → β) (l : List α) (i : ℕ) (da : α) (db : β)
    (h : i < l.length) : (l.map f).getD i db = f (l.getD i da) := by
  rw [List.getD_eq_getElem _ _ (by simpa using h), List.getD_eq_getElem _ _ h,
    List.getElem_map]

lemma layer_norm_var_nonneg (N BLOCK_SIZE : ℕ) (x : ℕ → ℝ) :
    0 ≤ layer_norm_var N BLOCK_SIZE x := by
  unfold layer_norm_var
  apply div_nonneg _ (by positivity)
  apply List.sum_nonneg
  intro a ha
  simp only [List.mem_map] at ha
  obtain ⟨c, _, rfl⟩ := ha
  exact mul_self_nonneg _

/-- Claim C9: for every launch of each of the three kernels, the output
buffer is written only at mask-valid lanes — every store offset of
`softmax_kernel` and `layer_norm_kernel` is `row_idx * stride + c` with
`c < n_cols` (resp. `c < N`), and every store offset of `gelu_kernel` is
`< n_elements`. -/
theorem kernels_store_only_valid_lanes
    (row_idx input_row_stride output_row_stride n_cols BLOCK_SIZE : ℕ) (input : ℕ → ℝ)
    (N : ℕ) (eps : ℝ) (xflat weight bias : ℕ → ℝ)
    (pid BLOCK2 n_elements : ℕ) (g : ℕ → ℝ) :
    (∀ o ∈ (softmax_kernel row_idx input_row_stride output_row_stride n_cols
        BLOCK_SIZE input).map Prod.fst,
      ∃ c, c < n_cols ∧ o = row_idx * output_row_stride + c) ∧
    (∀ o ∈ (layer_norm_kernel row_idx N BLOCK_SIZE eps xflat weight bias).map Prod.fst,
      ∃ c, c < N ∧ o = row_idx * N + c) ∧
    (∀ o ∈ (gelu_kernel pid BLOCK2 n_elements g).map Prod.fst, o < n_elements) := by
  refine ⟨?_, ?_, ?_⟩
  · intro o ho
    simp only [softmax_kernel, List.map_map, List.mem_map, Function.comp] at ho
    obtain ⟨c, hc, rfl⟩ := ho
    have hcv := List.mem_filter.mp hc
    exact ⟨c, by simpa using hcv.2, rfl⟩
  · intro o ho
    simp only [layer_norm_kernel, List.map_map, List.mem_map, Function.comp] at ho
    obtain ⟨c, hc, rfl⟩ := ho
    have hcv := List.mem_filter.mp hc
    exact ⟨c, by simpa using hcv.2, rfl⟩
  · intro o ho
    simp only [gelu_kernel, List.map_map, List.mem_map, Function.comp] at ho
    obtain ⟨c, hc, rfl⟩ := ho
    have hcv := List.mem_filter.mp hc
    simpa using hcv.2

/-- Claim C5: a row with zero valid columns (`n_cols = 0`) does not make the
softmax path crash: the wrapper is total, returns one output row per input
row, and the output row for an all-masked (empty) row has no elements at
all — in particular no NaN/undefined entry. -/
theorem softmax_forward_all_masked_row (x : List (List ℝ)) (i : ℕ)
    (hi : i < x.length) (hrow : x.getD i [] = []) :
    (TritonSoftmax_forward x).length = x.length ∧
    (TritonSoftmax_forward x).getD i [] = [] := by
  constructor
  · simp [TritonSoftmax_forward]
  · rw [TritonSoftmax_forward, getD_map _ _ _ [] [] hi, hrow]
    rfl

theorem softmax_forward_all_masked_row_witness :
    (0 < ([([] : List ℝ)]).length ∧ ([([] : List ℝ)]).getD 0 [] = []) ∧
    (TritonSoftmax_forward [([] : List ℝ)]).length = 1 ∧
    (TritonSoftmax_forward [([] : List ℝ)]).getD 0 [] = [] := by
  refine ⟨⟨by norm_num, rfl⟩, ?_⟩
  exact softmax_forward_all_masked_row [[]] 0 (by norm_num) rfl

/-- Claim C8: on the zero-variance row `[2,2,2,2]` with `eps = 1e-5` and any
`BLOCK_SIZE ≥ N = 4`, `layer_norm_kernel` stores exactly the bias vector
(`scale * 0 + bias`) at lanes `0..3`, and the guarded square root
`sqrt(var + eps)` is strictly positive, so no division by zero occurs. -/
theorem layer_norm_zero_variance_row (BLOCK_SIZE : ℕ) (hB : 4 ≤ BLOCK_SIZE)
    (weight bias : ℕ → ℝ) :
    layer_norm_kernel 0 4 BLOCK_SIZE (1e-5) (fun _ => 2) weight bias
      = (List.range 4).map (fun c => (c, bias c)) ∧
    0 < Real.sqrt (layer_norm_var 4 BLOCK_SIZE (fun _ => 2) + 1e-5) := by
  have hmean : layer_norm_mean 4 BLOCK_SIZE (fun _ => 2) = 2 := by
    unfold layer_norm_mean maskedLoad
    rw [sum_map_ite_lt 4 BLOCK_SIZE hB]
    norm_num [List.range_succ]
  constructor
  · unfold layer_norm_kernel
    rw [range_filter_lt 4 BLOCK_SIZE hB]
    apply List.map_congr_left
    intro c hc
    have hc4 : c < 4 := List.mem_range.mp hc
    simp only [Nat.zero_mul, Nat.zero_add, maskedLoad, hc4, if_pos]
    rw [hmean]
    simp
  · apply Real.sqrt_pos.mpr
    have := layer_norm_var_nonneg 4 BLOCK_SIZE (fun _ => 2)
    norm_num
    linarith

theorem layer_norm_zero_variance_row_witness :
    4 ≤ 4 ∧
    (layer_norm_kernel 0 4 4 (1e-5) (fun _ => 2) (fun _ => 1) (fun _ => (0:ℝ))
        = (List.range 4).map (fun c => (c, (0:ℝ))) ∧
      0 < Real.sqrt (layer_norm_var 4 4 (fun _ => 2) + 1e-5)) :=
  ⟨le_rfl, layer_norm_zero_variance_row 4 le_rfl (fun _ => 1) (fun _ => 0)⟩

/-- Claim C10: the softmax wrapper's launch configuration satisfies the
row-kernel precondition — the grid has exactly one program per row, the
block size is the least power of two `≥ n_cols` (so in particular
`BLOCK_SIZE ≥ n_cols`), and with that block size one program's masked
stores cover each valid lane of its row exactly once, in order. -/
theorem softmax_launch_config (B N : ℕ) (hN : 1 ≤ N) (x : List (List ℝ))
    (f : ℕ → ℝ) :
    TritonSoftmax_grid B = B ∧
    (TritonSoftmax_forward x).length = x.length ∧
    (∃ k, TritonSoftmax_BLOCK N = 2 ^ k) ∧
    N ≤ TritonSoftmax_BLOCK N ∧
    TritonSoftmax_BLOCK N < 2 * N ∧
    (softmax_kernel 0 N N N (TritonSoftmax_BLOCK N) f).map Prod.fst = List.range N := by
  refine ⟨rfl, by simp [TritonSoftmax_forward], nextPow2_pow N hN, le_nextPow2 N hN,
    nextPow2_lt N hN, ?_⟩
  unfold softmax_kernel
  rw [List.map_map, range_filter_lt N (TritonSoftmax_BLOCK N) (le_nextPow2 N hN)]
  conv_rhs => rw [← List.map_id (List.range N)]
  apply List.map_congr_left
  intro a _
  simp

theorem softmax_launch_config_witness :
    1 ≤ 3 ∧
    (TritonSoftmax_grid 2 = 2 ∧
      (TritonSoftmax_forward [[(1:ℝ)], [2]]).length = [[(1:ℝ)], [2]].length ∧
      (∃ k, TritonSoftmax_BLOCK 3 = 2 ^ k) ∧
      3 ≤ TritonSoftmax_BLOCK 3 ∧
      TritonSoftmax_BLOCK 3 < 2 * 3 ∧
      (softmax_kernel 0 3 3 3 (TritonSoftmax_BLOCK 3) (fun _ => 0)).map Prod.fst
        = List.range 3) :=
  ⟨by norm_num, softmax_launch_config 2 3 (by norm_num) [[1], [2]] (fun _ => 0)⟩

/-- Claim C2 counterexample: a launch whose block size (the hard-coded
`BLOCK_SIZE=128`) is smaller than the row length `N = 256` does NOT fail
fast — the wrapper's only validation is the trailing-shape assertion, so
the call goes through and returns `ok`. -/
theorem layer_norm_forwardChecked_no_block_check :
    128 < 256 ∧
    ∃ y, TritonLayerNorm_forwardChecked [256] (1e-5) (fun _ => 1) (fun _ => 0)
        ⟨[1, 256], List.replicate 256 0⟩ = Except.ok y := by
  exact ⟨by norm_num, ⟨_, rfl⟩⟩

/-- Claim C2 amended: if the input's trailing dimensions differ from the
configured normalized shape, `TritonLayerNorm.forward` fails fast with the
descriptive assertion message before any kernel launch; the block-size
precondition `BLOCK_SIZE ≥ N` is not validated at all (a longer row is
silently truncated). -/
theorem layer_norm_forwardChecked_shape_error (normalized_shape : List ℕ)
    (eps : ℝ) (weight bias : ℕ → ℝ) (t : Tensor)
    (h : t.shape.drop (t.shape.length - normalized_shape.length) ≠ normalized_shape) :
    TritonLayerNorm_forwardChecked normalized_shape eps weight bias t
      = Except.error shapeMismatchMsg := by
  unfold TritonLayerNorm_forwardChecked
  rw [if_neg h]

theorem layer_norm_forwardChecked_shape_error_witness :
    (Tensor.mk [3] [1, 2, 3]).shape.drop
        ((Tensor.mk [3] [1, 2, 3]).shape.length - ([2] : List ℕ).length) ≠ [2] ∧
    TritonLayerNorm_forwardChecked [2] (1e-5) (fun _ => 1) (fun _ => 0)
        ⟨[3], [1, 2, 3]⟩ = Except.error shapeMismatchMsg :=
  ⟨by decide,
    layer_norm_forwardChecked_shape_error [2] (1e-5) (fun _ => 1) (fun _ => 0)
      ⟨[3], [1, 2, 3]⟩ (by decide)⟩

/-- Claim C1 fails on the code: `TritonLayerNorm.forward` launches only
`cdiv(M, 128)` program instances while the kernel normalises one row per
instance, so on the `[2, 1]` input `[[1], [3]]` the grid has a single
program and output row 1 (flat offset 1) is never written — it keeps the
uninitialised `torch.empty_like` memory instead of the value
`(x - mean) * rstd * scale + bias` the claim requires for every row. -/
theorem layer_norm_forward_unwritten_row :
    (TritonLayerNorm_forward (1e-5) (fun _ => 1) (fun _ => 0) [[1], [3]]).length = 2 ∧
    (TritonLayerNorm_forward (1e-5) (fun _ => 1) (fun _ => 0) [[1], [3]]).getD 1 none
      = none := by
  simp only [TritonLayerNorm_forward]
  constructor
  · rw [length_foldGrid]
    rfl
  · rw [List.getD_eq_getElem?_getD, foldGrid_getElem?_not_mem]
    · rfl
    · intro p hp
      have hp0 : p = 0 := by
        rw [show cdiv [[(1:ℝ)], [3]].length 128 = 1 from rfl] at hp
        have := List.mem_range.mp hp
        omega
      subst hp0
      rw [layer_norm_kernel_keys]
      decide

lemma gelu_kernel_keys (pid BLOCK_SIZE n_elements : ℕ) (x : ℕ → ℝ) :
    (gelu_kernel pid BLOCK_SIZE n_elements x).map Prod.fst
      = ((List.range BLOCK_SIZE).map (fun l => pid * BLOCK_SIZE + l)).filter
          (fun o => o < n_elements) := by
  unfold gelu_kernel
  rw [List.map_map]
  conv_rhs => rw [← List.map_id (((List.range BLOCK_SIZE).map
    (fun l => pid * BLOCK_SIZE + l)).filter (fun o => o < n_elements))]
  rfl

lemma gelu_kernel_keys_nodup (pid BLOCK_SIZE n_elements : ℕ) (x : ℕ → ℝ) :
    ((gelu_kernel pid BLOCK_SIZE n_elements x).map Prod.fst).Nodup := by
  rw [gelu_kernel_keys]
  apply List.Nodup.filter
  exact (List.nodup_range BLOCK_SIZE).map (fun a b hab => by omega)

lemma gelu_kernel_mem (pid BLOCK_SIZE n_elements i : ℕ) (x : ℕ → ℝ)
    (hB : 0 < BLOCK_SIZE) (hin : i < n_elements) (hpid : pid = i / BLOCK_SIZE) :
    (i, gelu_scalar (x i)) ∈ gelu_kernel pid BLOCK_SIZE n_elements x := by
  unfold gelu_kernel
  apply List.mem_map.mpr
  refine ⟨i, ?_, rfl⟩
  apply List.mem_filter.mpr
  refine ⟨?_, by simpa using hin⟩
  apply List.mem_map.mpr
  refine ⟨i % BLOCK_SIZE, List.mem_range.mpr (Nat.mod_lt _ hB), ?_⟩
  rw [hpid, Nat.mul_comm]
  exact Nat.div_add_mod i BLOCK_SIZE

lemma gelu_kernel_not_mem (p BLOCK_SIZE n_elements i : ℕ) (x : ℕ → ℝ)
    (hp : p ≠ i / BLOCK_SIZE) (hB : 0 < BLOCK_SIZE) :
    i ∉ (gelu_kernel p BLOCK_SIZE n_elements x).map Prod.fst := by
  rw [gelu_kernel_keys]
  intro hmem
  have h1 := (List.mem_filter.mp hmem).1
  obtain ⟨l, hl, he⟩ := List.mem_map.mp h1
  have hlB := List.mem_range.mp hl
  apply hp
  rw [← he, Nat.mul_comm, Nat.mul_add_div hB, Nat.div_eq_of_lt hlB]
  omega

/-- Claim C7: for every input element, the GELU wrapper writes exactly
`y = 0.5 * x * (1 + (x*coeff) / (1 + |x*coeff|))` with
`coeff = 0.7978845608028654 * (1 + 0.044715 * x^2)` (the code's decimal
literal for `sqrt(2/pi)`), and `gelu_scalar 0 = 0` exactly. -/
theorem gelu_forward_formula (x : List ℝ) (i : ℕ) (hi : i < x.length) :
    (TritonGELU_forward x).getD i none
      = some (0.5 * x.getD i 0 *
          (1 + (x.getD i 0 * (0.7978845608028654 *
              (1 + 0.044715 * x.getD i 0 * x.getD i 0))) /
            (1 + |x.getD i 0 * (0.7978845608028654 *
              (1 + 0.044715 * x.getD i 0 * x.getD i 0))|))) ∧
    gelu_scalar 0 = 0 := by
  constructor
  · have hcov : x.length ≤ cdiv x.length 1024 * 1024 := by
      unfold cdiv
      omega
    have hp0lt : i / 1024 < cdiv x.length 1024 := by
      apply (Nat.div_lt_iff_lt_mul (by norm_num)).mpr
      omega
    have hmem := gelu_kernel_mem (i / 1024) 1024 x.length i
      (fun o => x.getD o 0) (by norm_num) hi rfl
    have hrw := foldGrid_getElem?_mem
      (fun p => gelu_kernel p 1024 x.length (fun o => x.getD o 0)) i
      (gelu_scalar (x.getD i 0)) (i / 1024)
      (List.range (cdiv x.length 1024)) (List.replicate x.length none)
      (List.nodup_range _) (List.mem_range.mpr hp0lt) (by simpa using hi)
      hmem (gelu_kernel_keys_nodup _ _ _ _)
      (fun p _ hne => gelu_kernel_not_mem p 1024 x.length i _ hne (by norm_num))
    simp only [] at hrw
    have hfwd : (TritonGELU_forward x)[i]? = some (some (gelu_scalar (x.getD i 0))) := by
      simp only [TritonGELU_forward]
      exact hrw
    rw [List.getD_eq_getElem?_getD, hfwd]
    simp only [Option.getD_some, gelu_scalar]
  · simp [gelu_scalar]

theorem gelu_forward_formula_witness :
    0 < [(1:ℝ)].length ∧
    ((TritonGELU_forward [(1:ℝ)]).getD 0 none
      = some (0.5 * [(1:ℝ)].getD 0 0 *
          (1 + ([(1:ℝ)].getD 0 0 * (0.7978845608028654 *
              (1 + 0.044715 * [(1:ℝ)].getD 0 0 * [(1:ℝ)].getD 0 0))) /
            (1 + |[(1:ℝ)].getD 0 0 * (0.7978845608028654 *
              (1 + 0.044715 * [(1:ℝ)].getD 0 0 * [(1:ℝ)].getD 0 0))|))) ∧
      gelu_scalar 0 = 0) :=
  ⟨by norm_num, gelu_forward_formula [(1:ℝ)] 0 (by norm_num)⟩

lemma clamp100_idem (v : ℝ) : clamp100 (clamp100 v) = clamp100 v := by
  unfold clamp100
  have h1 : max (-100) (min v 100) ≤ 100 := max_le (by norm_num) (min_le_right _ _)
  have h2 : (-100 : ℝ) ≤ max (-100) (min v 100) := le_max_left _ _
  rw [min_eq_left h1, max_eq_right h2]

lemma sum_map_div (l : List ℝ) (s : ℝ) :
    (l.map (fun v => v / s)).sum = l.sum / s := by
  induction l with
  | nil => simp
  | cons h t ih => simp [ih, add_div]

/-- With `n_cols ≤ BLOCK_SIZE` and `row_idx = 0`, the padding lanes of
`softmax_kernel` are inert and the kernel stores, at offsets `0, …, n-1`,
exactly `exp(x_c - max) / (sum exp + 1e-6)`. -/
lemma softmax_kernel_full_row (n BLOCK_SIZE instr outstr : ℕ) (f : ℕ → ℝ)
    (h : n ≤ BLOCK_SIZE) :
    softmax_kernel 0 instr outstr n BLOCK_SIZE f
      = (List.range n).map (fun c =>
          (c, Real.exp (f c - listMax ((List.range n).map f)) /
            (((List.range n).map
                (fun k => Real.exp (f k - listMax ((List.range n).map f)))).sum
              + 1e-6))) := by
  simp only [softmax_kernel]
  rw [range_filter_lt n BLOCK_SIZE h]
  simp only [Nat.zero_mul, Nat.zero_add]

/-- Adding `1e-8` to a list of non-negative values and renormalising by the
(then strictly positive) sum yields a list of the same length that is
non-negative and sums to exactly 1. -/
lemma renorm_spec (kvals : List ℝ) (hpos : ∀ v ∈ kvals, 0 ≤ v) (hne : kvals ≠ []) :
    ((kvals.map (fun v => v + 1e-8)).map
        (fun v => v / (kvals.map (fun v => v + 1e-8)).sum)).length = kvals.length ∧
    (∀ v ∈ (kvals.map (fun v => v + 1e-8)).map
        (fun v => v / (kvals.map (fun v => v + 1e-8)).sum), 0 ≤ v) ∧
    ((kvals.map (fun v => v + 1e-8)).map
        (fun v => v / (kvals.map (fun v => v + 1e-8)).sum)).sum = 1 := by
  have hypos : ∀ v ∈ kvals.map (fun v => v + 1e-8), 0 < v := by
    intro v hv
    obtain ⟨w, hw, rfl⟩ := List.mem_map.mp hv
    have := hpos w hw
    linarith
  have hsum : 0 < (kvals.map (fun v => v + 1e-8)).sum :=
    List.sum_pos _ hypos (by simpa using hne)
  refine ⟨by simp, ?_, ?_⟩
  · intro v hv
    obtain ⟨w, hw, rfl⟩ := List.mem_map.mp hv
    exact div_nonneg (hypos w hw).le hsum.le
  · rw [sum_map_div, div_self (ne_of_gt hsum)]

/-- Row-level behaviour of the softmax host wrapper: same length as the
input row, non-negative entries, and a row sum of exactly 1. -/
lemma softmaxHostRow_spec (row : List ℝ) (hne : row ≠ []) :
    (softmaxHostRow row).length = row.length ∧
    (∀ v ∈ softmaxHostRow row, 0 ≤ v) ∧
    (softmaxHostRow row).sum = 1 := by
  have h1 : 1 ≤ (row.map clamp100).length := by
    rw [List.length_map]
    exact List.length_pos.mpr hne
  have hker := softmax_kernel_full_row (row.map clamp100).length
    (TritonSoftmax_BLOCK (row.map clamp100).length) (row.map clamp100).length
    (row.map clamp100).length (fun o => (row.map clamp100).getD o 0)
    (le_nextPow2 _ h1)
  have hpos : ∀ v ∈ (softmax_kernel 0 (row.map clamp100).length
      (row.map clamp100).length (row.map clamp100).length
      (TritonSoftmax_BLOCK (row.map clamp100).length)
      (fun o => (row.map clamp100).getD o 0)).map Prod.snd, 0 ≤ v := by
    rw [hker, List.map_map]
    intro v hv
    obtain ⟨c, _, rfl⟩ := List.mem_map.mp hv
    simp only [Function.comp]
    apply div_nonneg (Real.exp_pos _).le
    have hs : 0 ≤ (((List.range (row.map clamp100).length).map
        (fun k => Real.exp ((row.map clamp100).getD k 0
          - listMax ((List.range (row.map clamp100).length).map
              (fun o => (row.map clamp100).getD o 0))))).sum) :=
      List.sum_nonneg (fun a ha => by
        obtain ⟨k, _, rfl⟩ := List.mem_map.mp ha
        exact (Real.exp_pos _).le)
    linarith
  have hlen : ((softmax_kernel 0 (row.map clamp100).length
      (row.map clamp100).length (row.map clamp100).length
      (TritonSoftmax_BLOCK (row.map clamp100).length)
      (fun o => (row.map clamp100).getD o 0)).map Prod.snd).length
        = row.length := by
    rw [hker]
    simp
  have hne2 : (softmax_kernel 0 (row.map clamp100).length
      (row.map clamp100).length (row.map clamp100).length
      (TritonSoftmax_BLOCK (row.map clamp100).length)
      (fun o => (row.map clamp100).getD o 0)).map Prod.snd ≠ [] := by
    apply List.ne_nil_of_length_pos
    rw [hlen]
    exact List.length_pos.mpr hne
  have hre := renorm_spec _ hpos hne2
  simp only [softmaxHostRow]
  exact ⟨by rw [hre.1, hlen], hre.2.1, hre.2.2⟩

lemma softmaxHostRow_clamp (r : List ℝ) :
    softmaxHostRow (r.map clamp100) = softmaxHostRow r := by
  simp only [softmaxHostRow, List.map_map]
  have hcc : clamp100 ∘ clamp100 = clamp100 := funext clamp100_idem
  rw [hcc]

/-- Claim C3: for every input tensor (2-D view) and every non-empty row,
the softmax wrapper returns a tensor of identical shape whose entries are
non-negative and sum to 1 along the last dimension within `1e-4` absolute
tolerance (here: exactly 1), after adding `1e-8` and renormalising by the
row sum; and the wrapper's clamping of inputs to `[-100, 100]` makes it
invariant under pre-clamped input. -/
theorem softmax_forward_rows (x : List (List ℝ)) (i : ℕ) (hi : i < x.length)
    (hne : x.getD i [] ≠ []) :
    (TritonSoftmax_forward x).length = x.length ∧
    ((TritonSoftmax_forward x).getD i []).length = (x.getD i []).length ∧
    (∀ v ∈ (TritonSoftmax_forward x).getD i [], 0 ≤ v) ∧
    |((TritonSoftmax_forward x).getD i []).sum - 1| ≤ 1e-4 ∧
    TritonSoftmax_forward (x.map (fun r => r.map clamp100)) = TritonSoftmax_forward x := by
  have hrow := softmaxHostRow_spec (x.getD i []) hne
  have hmap : (x.map softmaxHostRow).getD i [] = softmaxHostRow (x.getD i []) :=
    getD_map softmaxHostRow x i [] [] hi
  refine ⟨by simp [TritonSoftmax_forward], ?_, ?_, ?_, ?_⟩
  · rw [TritonSoftmax_forward, hmap]
    exact hrow.1
  · rw [TritonSoftmax_forward, hmap]
    exact hrow.2.1
  · rw [TritonSoftmax_forward, hmap, hrow.2.2]
    norm_num
  · unfold TritonSoftmax_forward
    rw [List.map_map]
    apply List.map_congr_left
    intro r _
    exact softmaxHostRow_clamp r

theorem softmax_forward_rows_witness :
    (0 < [[(0:ℝ)]].length ∧ ([[(0:ℝ)]].getD 0 [] ≠ [])) ∧
    ((TritonSoftmax_forward [[(0:ℝ)]]).length = [[(0:ℝ)]].length ∧
      ((TritonSoftmax_forward [[(0:ℝ)]]).getD 0 []).length = ([[(0:ℝ)]].getD 0 []).length ∧
      (∀ v ∈ (TritonSoftmax_forward [[(0:ℝ)]]).getD 0 [], 0 ≤ v) ∧
      |((TritonSoftmax_forward [[(0:ℝ)]]).getD 0 []).sum - 1| ≤ 1e-4 ∧
      TritonSoftmax_forward ([[(0:ℝ)]].map (fun r => r.map clamp100))
        = TritonSoftmax_forward [[(0:ℝ)]]) :=
  ⟨⟨by norm_num, by simp⟩,
    softmax_forward_rows [[(0:ℝ)]] 0 (by norm_num) (by simp)⟩

/-- Claim C6: on the degenerate all-equal extreme row `[-1000, -1000, -1000]`
the softmax wrapper clamps to `[-100, -100, -100]` before dispatch and both
epsilon stabilisation layers apply, returning exactly the finite uniform
distribution `[1/3, 1/3, 1/3]` — never NaN. -/
theorem softmax_degenerate_row :
    TritonSoftmax_forward [[-1000, -1000, -1000]] = [[1/3, 1/3, 1/3]] := by
  have hc : clamp100 (-1000) = -100 := by
    unfold clamp100
    rw [min_eq_left (by norm_num), max_eq_left (by norm_num)]
  have hrc : ([(-1000 : ℝ), -1000, -1000].map clamp100) = [-100, -100, -100] := by
    simp [hc]
  have hm : listMax [(-100 : ℝ), -100, -100] = -100 := by
    simp [listMax, max_self]
  have hker := softmax_kernel_full_row ([(-100:ℝ), -100, -100].length)
    (TritonSoftmax_BLOCK ([(-100:ℝ), -100, -100].length))
    ([(-100:ℝ), -100, -100].length) ([(-100:ℝ), -100, -100].length)
    (fun o => [(-100:ℝ), -100, -100].getD o 0) (by decide)
  have hroweq : softmaxHostRow [-1000, -1000, -1000] = [1/3, 1/3, 1/3] := by
    simp only [softmaxHostRow, hrc]
    rw [hker, List.map_map]
    rw [show [(-100:ℝ), -100, -100].length = 3 from rfl,
      show List.range 3 = [0, 1, 2] from rfl]
    simp only [List.map_cons, List.map_nil, Function.comp, List.getD]
    norm_num [hm, Real.exp_zero]
  unfold TritonSoftmax_forward
  rw [List.map_singleton, hroweq]

lemma exp_neg_one_bounds : 0.3678 < Real.exp (-1) ∧ Real.exp (-1) < 0.3679 := by
  have hE1 := Real.exp_one_gt_d9
  have hE2 := Real.exp_one_lt_d9
  have hEpos := Real.exp_pos 1
  have hu_eq : Real.exp (-1) * Real.exp 1 = 1 := by
    rw [← Real.exp_add]
    norm_num
  constructor
  · by_contra hcon
    push_neg at hcon
    have h1 : Real.exp (-1) * Real.exp 1 ≤ 0.3678 * Real.exp 1 :=
      mul_le_mul_of_nonneg_right hcon hEpos.le
    nlinarith
  · by_contra hcon
    push_neg at hcon
    have h1 : 0.3679 * Real.exp 1 ≤ Real.exp (-1) * Real.exp 1 :=
      mul_le_mul_of_nonneg_right hcon hEpos.le
    nlinarith

lemma softmax_scenario_123 :
    |(((softmax_kernel 0 3 3 3 4 (fun o => [(1:ℝ), 2, 3].getD o 0)).map
        Prod.snd).getD 0 0) - 0.0900| < 1e-3 ∧
    |(((softmax_kernel 0 3 3 3 4 (fun o => [(1:ℝ), 2, 3].getD o 0)).map
        Prod.snd).getD 1 0) - 0.2447| < 1e-3 ∧
    |(((softmax_kernel 0 3 3 3 4 (fun o => [(1:ℝ), 2, 3].getD o 0)).map
        Prod.snd).getD 2 0) - 0.6652| < 1e-3 := by
  have hker := softmax_kernel_full_row 3 4 3 3 (fun o => [(1:ℝ), 2, 3].getD o 0)
    (by norm_num)
  have hm3 : listMax [(1:ℝ), 2, 3] = 3 := by
    simp only [listMax, List.foldl_cons, List.foldl_nil]
    rw [max_eq_right (by norm_num : (1:ℝ) ≤ 2), max_eq_right (by norm_num : (2:ℝ) ≤ 3)]
  rw [hker, List.map_map, show List.range 3 = [0, 1, 2] from rfl]
  simp only [List.map_cons, List.map_nil, Function.comp, List.getD, List.get?,
    Option.getD, List.sum_cons, List.sum_nil, add_zero]
  rw [hm3, show (1:ℝ) - 3 = -2 by norm_num, show (2:ℝ) - 3 = -1 by norm_num,
    show (3:ℝ) - 3 = 0 by norm_num, Real.exp_zero,
    show Real.exp (-2:ℝ) = Real.exp (-1) * Real.exp (-1) by
      rw [← Real.exp_add]; norm_num]
  obtain ⟨hu1, hu2⟩ := exp_neg_one_bounds
  have hupos : (0:ℝ) < Real.exp (-1) := Real.exp_pos _
  set u := Real.exp (-1) with hu
  have husq1 : 0.1352 < u * u := by nlinarith
  have husq2 : u * u < 0.1354 := by nlinarith
  have hD : (0:ℝ) < u * u + (u + 1) + 1e-6 := by nlinarith
  have ha1 : u * u / (u * u + (u + 1) + 1e-6) < 0.091 := by
    rw [div_lt_iff₀ hD]; nlinarith
  have ha2 : 0.089 < u * u / (u * u + (u + 1) + 1e-6) := by
    rw [lt_div_iff₀ hD]; nlinarith
  have hb1 : u / (u * u + (u + 1) + 1e-6) < 0.2457 := by
    rw [div_lt_iff₀ hD]; nlinarith
  have hb2 : 0.2437 < u / (u * u + (u + 1) + 1e-6) := by
    rw [lt_div_iff₀ hD]; nlinarith
  have hc1 : 1 / (u * u + (u + 1) + 1e-6) < 0.6662 := by
    rw [div_lt_iff₀ hD]; nlinarith
  have hc2 : 0.6642 < 1 / (u * u + (u + 1) + 1e-6) := by
    rw [lt_div_iff₀ hD]; nlinarith
  refine ⟨?_, ?_, ?_⟩ <;> rw [abs_lt] <;> constructor <;> linarith

/-- Claim C4: for every row with at least one valid column and
`BLOCK_SIZE ≥ n_cols`, `softmax_kernel` stores at each valid lane `c` the
value `exp(x_c - max row) / (sum_k exp(x_k - max row) + 1e-6)` — the `-inf`
padding lanes affect neither the max nor the sum — and in particular on the
row `[1, 2, 3]` with block size 4 the stored values are within `1e-3` of
`[0.0900, 0.2447, 0.6652]`. -/
theorem softmax_kernel_row_formula (n BLOCK_SIZE instr outstr : ℕ) (f : ℕ → ℝ)
    (_h1 : 1 ≤ n) (h2 : n ≤ BLOCK_SIZE) :
    (softmax_kernel 0 instr outstr n BLOCK_SIZE f
      = (List.range n).map (fun c =>
          (c, Real.exp (f c - listMax ((List.range n).map f)) /
            (((List.range n).map
                (fun k => Real.exp (f k - listMax ((List.range n).map f)))).sum
              + 1e-6)))) ∧
    (|(((softmax_kernel 0 3 3 3 4 (fun o => [(1:ℝ), 2, 3].getD o 0)).map
          Prod.snd).getD 0 0) - 0.0900| < 1e-3 ∧
      |(((softmax_kernel 0 3 3 3 4 (fun o => [(1:ℝ), 2, 3].getD o 0)).map
          Prod.snd).getD 1 0) - 0.2447| < 1e-3 ∧
      |(((softmax_kernel 0 3 3 3 4 (fun o => [(1:ℝ), 2, 3].getD o 0)).map
          Prod.snd).getD 2 0) - 0.6652| < 1e-3) :=
  ⟨softmax_kernel_full_row n BLOCK_SIZE instr outstr f h2, softmax_scenario_123⟩

theorem softmax_kernel_row_formula_witness :
    (1 ≤ 3 ∧ 3 ≤ 4) ∧
    ((softmax_kernel 0 3 3 3 4 (fun o => [(1:ℝ), 2, 3].getD o 0)
      = (List.range 3).map (fun c =>
          (c, Real.exp ([(1:ℝ), 2, 3].getD c 0
                - listMax ((List.range 3).map (fun o => [(1:ℝ), 2, 3].getD o 0))) /
            (((List.range 3).map
                (fun k => Real.exp ([(1:ℝ), 2, 3].getD k 0
                  - listMax ((List.range 3).map
                      (fun o => [(1:ℝ), 2, 3].getD o 0))))).sum
              + 1e-6)))) ∧
    (|(((softmax_kernel 0 3 3 3 4 (fun o => [(1:ℝ), 2, 3].getD o 0)).map
          Prod.snd).getD 0 0) - 0.0900| < 1e-3 ∧
      |(((softmax_kernel 0 3 3 3 4 (fun o => [(1:ℝ), 2, 3].getD o 0)).map
          Prod.snd).getD 1 0) - 0.2447| < 1e-3 ∧
      |(((softmax_kernel 0 3 3 3 4 (fun o => [(1:ℝ), 2, 3].getD o 0)).map
          Prod.snd).getD 2 0) - 0.6652| < 1e-3)) :=
  ⟨⟨by norm_num, by norm_num⟩,
    softmax_kernel_row_formula 3 4 3 3 (fun o => [(1:ℝ), 2, 3].getD o 0)
      (by norm_num) (by norm_num)⟩

end TritonNanoGPT
